import Mathlib

/-
Shallow embedding of the prophetverse effect framework
(src/prophetverse/effects/base.py, src/prophetverse/effects/log.py,
src/prophetverse/effects/effects.py, src/prophetverse/effects/effect_apply.py,
src/prophetverse/effects.py).

Modelling conventions:
  * pandas DataFrames are modelled as a record of column names, an index-level
    count, and a mapping from column name to the column values;
  * jax numeric tensors are modelled over the rationals where only linear
    algebra is involved (decidable, executable) and over the reals where
    logarithms and real powers are involved;
  * a Python regular expression used through re.match / pd.Index.str.match is
    prefix-anchored; it is modelled as the boolean predicate on strings that it
    induces.  A literal pattern matches exactly the strings it is a prefix of,
    and a disjunction of literals (the string produced by joining names with a
    pipe character) matches the strings some literal is a prefix of;
  * raising an exception is modelled with Except; a function that cannot raise
    is pure;
  * numpyro.sample draws are the external source of randomness (section 5 of
    the specification: every operation is deterministic given its draws), so
    sampled values enter the model as explicit arguments.
-/

namespace Prophetverse

/-- Errors raised by the effect framework, one constructor per distinct
exception site in the source. -/
inductive EffectError where
  | notInitialized
  | noRegexPattern
  | multivariateNotSupported
  | dimensionMismatch
  | indexError
  | matmulShapeError
  | broadcastError
  deriving DecidableEq, Repr

/-- A pandas DataFrame: named columns over a (possibly hierarchical) row
index.  Only the facts the effect framework reads are kept: the ordered
column names, the number of index levels, and the values of each column. -/
structure DataFrame where
  columns : List String
  indexLevels : Nat
  col : String → List ℚ

/-- State of a BaseEffect (base.py lines 74-82): id, regex, the selected
column list, the initialization flag, and the two class tags. -/
structure BaseEffectState where
  id : String
  regex : Option (String → Bool)
  inputFeatureColumnNames : List String
  isInitialized : Bool
  skipApplyIfNoMatch : Bool
  supportsMultivariate : Bool

/-- BaseEffect.should_skip_apply (base.py lines 89-102): true when no input
feature columns were selected and the skip_apply_if_no_match tag is set. -/
def BaseEffect.should_skip_apply (e : BaseEffectState) : Bool :=
  e.inputFeatureColumnNames.isEmpty && e.skipApplyIfNoMatch

/-- BaseEffect.match_columns (base.py lines 226-249): raises when the regex
pattern is absent, otherwise keeps the columns matching the pattern, in the
input order.  The regex is modelled as the prefix-anchored predicate it
induces on strings. -/
def BaseEffect.match_columns (regex : Option (String → Bool))
    (columns : List String) : Except EffectError (List String) :=
  match regex with
  | none => .error .noRegexPattern
  | some p => .ok (columns.filter p)

/-- BaseEffect.initialize (base.py lines 104-145): rejects multivariate input
when unsupported, computes the selected column set (empty when there is no
regex), and marks the effect initialized.  The customizable _initialize hook
of the base class is a no-op (base.py lines 147-158). -/
def BaseEffect.initialize (e : BaseEffectState) (X : DataFrame) :
    Except EffectError BaseEffectState :=
  if e.supportsMultivariate = false ∧ X.indexLevels > 1 then
    .error .multivariateNotSupported
  else
    match e.regex with
    | none =>
        .ok { e with inputFeatureColumnNames := [], isInitialized := true }
    | some p =>
        .ok { e with inputFeatureColumnNames := X.columns.filter p,
                     isInitialized := true }

/-- BaseEffect.prepare_input_data (base.py lines 160-199): raises a lifecycle
error while uninitialized; returns an empty bundle when the effect should be
skipped; otherwise narrows the frame to the selected columns and converts it
to a single tensor named data (the default _prepare_input_data hook,
base.py lines 201-224; the tensor is kept column-major here, the axis layout
is immaterial to every claim below). -/
def BaseEffect.prepare_input_data (e : BaseEffectState) (X : DataFrame) :
    Except EffectError (List (String × List (List ℚ))) :=
  if e.isInitialized = false then .error .notInitialized
  else if BaseEffect.should_skip_apply e then .ok []
  else .ok [("data", e.inputFeatureColumnNames.map X.col)]

/-- BaseEffect.sample (base.py lines 251-253 and effects.py lines 62-66): the
name of the random variable declared for a draw, the effect id joined to the
local name by a double underscore. -/
def BaseEffect.sample_site_name (id name : String) : String :=
  id ++ "__" ++ name

/-- BaseEffect.apply (base.py lines 255-270): returns the value of the
subclass hook _apply unchanged.  The effect state is a parameter solely to
mirror the method receiver: the body reads none of it, in particular it does
not consult the initialization flag. -/
def BaseEffect.apply {Data Out : Type}
    (applyHook : List ℝ → Data → Out) (_e : BaseEffectState)
    (trend : List ℝ) (data : Data) : Out :=
  applyHook trend data

/-- BaseAdditiveOrMultiplicativeEffect.apply (base.py lines 298-338): runs
the raw computation, returns it unchanged in additive mode, and multiplies it
elementwise by the trend otherwise.  The mode string is fixed when the effect
is constructed (base.py lines 317-320) and never mutated. -/
def BaseAdditiveOrMultiplicativeEffect.apply (effect_mode : String)
    (applyHook : List ℝ → List ℝ → List ℝ)
    (trend data : List ℝ) : List ℝ :=
  let x := applyHook trend data
  if effect_mode = "additive" then x else List.zipWith (· * ·) trend x

/-- LogEffect._apply (log.py lines 43-66) given its two draws: maps each data
entry x to scale times the logarithm of the clipped quantity, where
jnp.clip with lower bound 1e-8 and no upper bound is the binary maximum. -/
noncomputable def LogEffect.applyHook (scale rate : ℝ) (data : List ℝ) :
    List ℝ :=
  data.map (fun x => scale * Real.log (max (rate * x + 1) (1 / 100000000)))

/-- LogEffect._apply viewed as an Except-valued hook: the body of the hook
raises no exception, so it always returns ok. -/
noncomputable def LogEffect.applyHookE (scale rate : ℝ) :
    List ℝ → List ℝ → Except EffectError (List ℝ) :=
  fun _trend data => .ok (LogEffect.applyHook scale rate data)

/-- Modelled from the spec: the numerically safe exponentiation used by the
Hill effect lives in prophetverse.utils.algebric_operations, which is not
among the source files; the specification describes it as a safe
exponentiation that avoids division-by-zero and
negative-base-fractional-power failures for zero or negative data.  A zero
base therefore bypasses the real power and every other base takes the real
power, which is total on the reals. -/
noncomputable def exponent_safe (data expo : ℝ) : ℝ :=
  if data = 0 then 0 else Real.rpow data expo

/-- HillEffect.compute_effect (effects/effects.py lines 152-173) given its
three draws: the raw value maps each data entry d to
max_effect / (1 + exponent_safe (d / half_max) (-slope)); in additive mode
the raw value is returned, otherwise it is multiplied elementwise by the
trend. -/
noncomputable def HillEffect.compute_effect (effect_mode : String)
    (half_max slope max_effect : ℝ) (trend data : List ℝ) : List ℝ :=
  let effect := data.map
    (fun d => max_effect / (1 + exponent_safe (d / half_max) (-slope)))
  if effect_mode = "additive" then effect
  else List.zipWith (· * ·) trend effect

/-- A jax array of rank one, two or three over the rationals, the ranks the
effect framework produces (series_to_tensor_or_array yields a matrix for a
flat frame and a rank-three tensor for a hierarchical one; coefficient draws
are rank one to three). -/
inductive NDArray where
  | d1 (v : List ℚ)
  | d2 (m : List (List ℚ))
  | d3 (t : List (List (List ℚ)))
  deriving DecidableEq, Repr

/-- The shape tuple of an array, read off the leading nested lengths as numpy
does for a rectangular array. -/
def NDArray.shape : NDArray → List Nat
  | .d1 v => [v.length]
  | .d2 m => [m.length, (m.headD []).length]
  | .d3 t => [t.length, (t.headD []).length, ((t.headD []).headD []).length]

/-- The row-major flattening of an array; reshape to a column vector keeps
exactly this element list. -/
def NDArray.flatten : NDArray → List ℚ
  | .d1 v => v
  | .d2 m => m.flatten
  | .d3 t => (t.map List.flatten).flatten

/-- Dot product of two equal-length vectors. -/
def dotProd (u v : List ℚ) : ℚ :=
  (List.zipWith (· * ·) u v).sum

/-- matrix_multiplication (effects.py lines 394-395, identical to the helper
imported by effect_apply.py): the data array matrix-multiplied by the
coefficients reshaped to a single column.  The second operand is a column of
length the flattened coefficient count, so the product requires every
contracted row of the data to have that length; jax raises on any other
shape, modelled by the shape error. -/
def matrix_multiplication (data coefficients : NDArray) :
    Except EffectError NDArray :=
  let c := coefficients.flatten
  match data with
  | .d1 v =>
      if v.length = c.length then .ok (.d1 [dotProd v c])
      else .error .matmulShapeError
  | .d2 m =>
      if m.all (fun row => row.length = c.length) then
        .ok (.d2 (m.map (fun row => [dotProd row c])))
      else .error .matmulShapeError
  | .d3 t =>
      if t.all (fun m => m.all (fun row => row.length = c.length)) then
        .ok (.d3 (t.map (fun m => m.map (fun row => [dotProd row c]))))
      else .error .matmulShapeError

/-- Elementwise product of two arrays of identical shape (the trend times
effect product; broadcasting beyond identical shapes is not needed by any
claim and is modelled as the jax broadcast error). -/
def NDArray.mul : NDArray → NDArray → Except EffectError NDArray
  | .d1 a, .d1 b =>
      if a.length = b.length then .ok (.d1 (List.zipWith (· * ·) a b))
      else .error .broadcastError
  | .d2 a, .d2 b =>
      if a.map List.length = b.map List.length then
        .ok (.d2 (List.zipWith (List.zipWith (· * ·)) a b))
      else .error .broadcastError
  | _, _ => .error .broadcastError

/-- additive_effect (effect_apply.py lines 12-32): raises the dimension
mismatch error when the second entry of the data shape differs from the
leading entry of the coefficient shape — reading the second entry of a
rank-one shape is itself an index error in Python — and otherwise multiplies.
The comparison reads data.shape at position one, not the trailing
position. -/
def additive_effect (data coefficients : NDArray) :
    Except EffectError NDArray :=
  match data.shape.get? 1 with
  | none => .error .indexError
  | some s1 =>
      if s1 ≠ coefficients.shape.headD 0 then .error .dimensionMismatch
      else matrix_multiplication data coefficients

/-- multiplicative_effect (effect_apply.py lines 35-59): the same dimension
check, then the trend multiplied elementwise by the matrix product. -/
def multiplicative_effect (trend data coefficients : NDArray) :
    Except EffectError NDArray :=
  match data.shape.get? 1 with
  | none => .error .indexError
  | some s1 =>
      if s1 ≠ coefficients.shape.headD 0 then .error .dimensionMismatch
      else
        match matrix_multiplication data coefficients with
        | .error e => .error e
        | .ok r => NDArray.mul trend r

/-- A concrete exogenous frame with one column, used to exercise the
lifecycle operations at concrete inputs. -/
def dfX : DataFrame :=
  { columns := ["x1"], indexLevels := 1, col := fun _ => [1, 2] }

/-- A log effect that has not been initialized: the state produced by the
BaseAdditiveOrMultiplicativeEffect constructor before any initialize call
(base.py lines 74-82 and 317-320). -/
def uninitLogEffect : BaseEffectState :=
  { id := "log", regex := some (fun _ => true),
    inputFeatureColumnNames := [], isInitialized := false,
    skipApplyIfNoMatch := true, supportsMultivariate := false }

/-- Row i of the identity matrix of size n, as the list of its entries. -/
def basisRow (n i : Nat) : List ℚ :=
  (List.range n).map (fun r => if r = i then 1 else 0)

/-- The block jnp.eye(n)[idx].T (effects.py line 321), represented by its
list of columns: the transpose of the identity rows selected by idx has one
column per selected index, the corresponding standard basis vector. -/
def eyeRowsT (n : Nat) (idx : List Nat) : List (List ℚ) :=
  idx.map (basisRow n)

/-- The permutation (placement) matrix of effects.py lines 297-324,
represented by its list of columns: the horizontal concatenation, one group
at a time in declaration order, of the transposed identity-row blocks of the
group index lists. -/
def placementCols (n : Nat) (groups : List (List Nat)) : List (List ℚ) :=
  (groups.map (eyeRowsT n)).flatten

/-- Elementwise sum of two vectors. -/
def vecAdd (u v : List ℚ) : List ℚ :=
  List.zipWith (· + ·) u v

/-- A scalar multiple of a vector. -/
def vecSmul (c : ℚ) (v : List ℚ) : List ℚ :=
  v.map (fun x => c * x)

/-- The zero vector of length n. -/
def zeroVec (n : Nat) : List ℚ :=
  List.replicate n 0

/-- Product of a matrix, given by its list of columns all of length n, with
a vector given as the list of its entries: the sum of the columns weighted
by the entries. -/
def matVecCols (n : Nat) (cols : List (List ℚ)) (b : List ℚ) : List ℚ :=
  ((cols.zip b).map (fun p => vecSmul p.2 p.1)).foldr vecAdd (zeroVec n)

/-- LinearHeterogenousPriorsEffect.get_coefficients (effects.py lines
327-343) given the per-group draws: the per-group coefficient vectors are
reshaped to columns, concatenated in declaration order, and the permutation
matrix is applied on the left. -/
def get_coefficients (n : Nat) (groups : List (List Nat))
    (draws : List (List ℚ)) : List ℚ :=
  matVecCols n (placementCols n groups) draws.flatten

/-- The specification-side description of the scatter of one group: each
group coefficient is placed at the original column position of its feature
and every other position holds zero. -/
def scatterGroup (n : Nat) (g : List Nat) (v : List ℚ) : List ℚ :=
  (List.range n).map (fun r =>
    match (g.zip v).find? (fun p => p.1 = r) with
    | some p => p.2
    | none => 0)

/-- The specification-side description of the assembled coefficient vector:
the per-group scatters summed across groups. -/
def scatterSum (n : Nat) (groups : List (List Nat))
    (draws : List (List ℚ)) : List ℚ :=
  ((groups.zip draws).map (fun p => scatterGroup n p.1 p.2)).foldr
    vecAdd (zeroVec n)

/-- The contribution of a list of index-and-coefficient pairs to row r of
the matrix-vector product: the sum of the coefficients whose index is r. -/
def colEntrySum (pairs : List (Nat × ℚ)) (r : Nat) : ℚ :=
  pairs.foldr (fun p acc => (if p.1 = r then p.2 else 0) + acc) 0

/-- A compiled regular expression: the pattern text together with the
prefix-anchored predicate re.match induces on strings. -/
structure Rx where
  pattern : String
  accepts : String → Bool

/-- Whether the first string is a prefix of the second, decided on the
underlying character lists. -/
def strPre (l s : String) : Bool :=
  l.data.isPrefixOf s.data

/-- A literal pattern under re.match: it matches exactly the strings it is
a prefix of (metacharacter-free pattern text). -/
def litRx (l : String) : Rx :=
  ⟨l, fun s => strPre l s⟩

/-- The pattern produced by joining literal names with a pipe (effects.py
line 285): under re.match it matches the strings some listed name is a
prefix of. -/
def disjRx (names : List String) : Rx :=
  ⟨String.intercalate "|" names, fun s => names.any (fun l => strPre l s)⟩

/-- The loop of LinearHeterogenousPriorsEffect.features_with_default_priors
(effects.py lines 272-281): walk the prior groups in declaration order,
collect the feature names each group pattern matches, raise listing the
overlap when a column was already claimed, and finally return the still
unclaimed feature names (effects.py line 282; pandas difference sorts its
result, the membership is what every statement below uses). -/
def remainingAfter {α : Type} (feature_names : List String) :
    List (Rx × α) → List String → Except (List String) (List String)
  | [], alreadySet =>
      .ok (feature_names.filter (fun c => !(alreadySet.contains c)))
  | (rx, _) :: rest, alreadySet =>
      let columns := feature_names.filter rx.accepts
      let overlap := columns.filter (fun c => alreadySet.contains c)
      if overlap.isEmpty then
        remainingAfter feature_names rest (alreadySet ++ columns)
      else .error overlap

/-- LinearHeterogenousPriorsEffect.features_with_default_priors (effects.py
lines 256-286): the loop above started with no claimed column. -/
def features_with_default_priors {α : Type} (priors : List (Rx × α))
    (feature_names : List String) : Except (List String) (List String) :=
  remainingAfter feature_names priors []

/-- One entry of exogenous_dists (effects.py lines 309-322): the declared
name, the prior it was built from, and the group size the prior was
broadcast to. -/
structure ExogenousDist (α : Type) where
  name : String
  prior : α
  size : Nat
  deriving DecidableEq, Repr

/-- The outcome of set_distributions_and_permutation_matrix: the warnings
logged for empty groups, the permutation matrix as its list of columns, and
the exogenous distributions. -/
structure BuildResult (α : Type) where
  warnings : List String
  permutationCols : List (List ℚ)
  dists : List (ExogenousDist α)
  deriving DecidableEq, Repr

/-- The index list of one group (effects.py lines 305-307): the positions,
in feature order, of the feature names the pattern matches; get_loc of a
feature name in a duplicate-free index is its position. -/
def groupIdx (m : String → Bool) (feature_names : List String) : List Nat :=
  (feature_names.enum.filter (fun p => m p.2)).map (fun p => p.1)

/-- The loop of set_distributions_and_permutation_matrix (effects.py lines
303-322), carrying the running enumerate counter: an empty group logs a
warning and contributes nothing — note the counter still advances past it —
while a nonempty group contributes its transposed identity block and a
distribution entry named with the counter. -/
def buildLoop {α : Type} (feature_names : List String) :
    Nat → List (Rx × α) → BuildResult α
  | _, [] => ⟨[], [], []⟩
  | i, (rx, p) :: rest =>
      let idx := groupIdx rx.accepts feature_names
      let r := buildLoop feature_names (i + 1) rest
      if idx.isEmpty then
        ⟨rx.pattern :: r.warnings, r.permutationCols, r.dists⟩
      else
        ⟨r.warnings, eyeRowsT feature_names.length idx ++ r.permutationCols,
         ⟨"exogenous_coefficients_" ++ toString i, p, idx.length⟩ :: r.dists⟩

/-- LinearHeterogenousPriorsEffect.set_distributions_and_permutation_matrix
(effects.py lines 288-325): an empty feature list returns early; otherwise
the remainder regex is computed (propagating the overlap error), appended
with the default prior when it is a nonempty string, and the loop above
runs over the groups in declaration order. -/
def set_distributions_and_permutation_matrix {α : Type}
    (priors : List (Rx × α)) (defaultPrior : α)
    (feature_names : List String) : Except (List String) (BuildResult α) :=
  if feature_names.length = 0 then .ok ⟨[], [], []⟩
  else
    match features_with_default_priors priors feature_names with
    | .error e => .error e
    | .ok remaining =>
        let priors2 :=
          if String.intercalate "|" remaining ≠ "" then
            priors ++ [(disjRx remaining, defaultPrior)]
          else priors
        .ok (buildLoop feature_names 0 priors2)

/-- The projection of a build result that forgets the warning list and the
counter-derived distribution names, keeping the permutation matrix and the
prior-and-size content of each declared distribution. -/
def stripNames {α : Type} (r : BuildResult α) :
    List (List ℚ) × List (α × Nat) :=
  (r.permutationCols, r.dists.map (fun d => (d.prior, d.size)))

/-- The assembled coefficient vector of the heterogeneous-prior effect for
a build result, given the per-group draws: the permutation matrix applied
to the concatenated draws (effects.py line 343). -/
def lin_het_get_coefficients {α : Type} (n : Nat) (r : BuildResult α)
    (draws : List (List ℚ)) : List ℚ :=
  matVecCols n r.permutationCols draws.flatten

/-- The build result of the dropped-empty-group scenario: priors zzz (no
match), a, and the implicit catch-all for b over the features a and b. -/
def c10result : BuildResult Nat :=
  ⟨["zzz"], [[1, 0], [0, 1]],
   [⟨"exogenous_coefficients_1", 5, 1⟩, ⟨"exogenous_coefficients_2", 9, 1⟩]⟩

/-- The feature names of the prefix-capture scenario. -/
def c3features : List String := ["x1", "x10"]

/-- A single explicit prior group claiming the feature x10 (priors carried
as bare naturals; the framework is parametric in the prior payload). -/
def c3priors : List (Rx × Nat) := [(litRx "x10", 0)]

end Prophetverse

deriving instance DecidableEq for Except

namespace Prophetverse

/-- Claim C1, counterexample: on one and the same uninitialized effect,
prepare_input_data raises the lifecycle error, as the claim states, but apply
does not — applied with the log hook at concrete draws and data it returns
the computed value, because BaseEffect.apply performs no initialization
check.  This refutes the conjunct that apply before initialize fails with a
lifecycle error. -/
theorem apply_before_initialize_does_not_raise :
    uninitLogEffect.isInitialized = false
    ∧ BaseEffect.prepare_input_data uninitLogEffect dfX
        = .error .notInitialized
    ∧ BaseEffect.apply (LogEffect.applyHookE 2 1) uninitLogEffect [1] [0]
        = .ok (LogEffect.applyHook 2 1 [0]) := by
  exact ⟨rfl, rfl, rfl⟩

/-- Claim C1, amended: calling prepare_input_data while uninitialized fails
with the lifecycle error; apply, in contrast, performs no lifecycle check at
all — its result is the bare value of the subclass hook whatever the
initialization flag is, so apply before initialize does not fail with a
lifecycle error. -/
theorem prepare_input_data_lifecycle_guard (e : BaseEffectState)
    (X : DataFrame) (h : e.isInitialized = false) :
    BaseEffect.prepare_input_data e X = .error .notInitialized
    ∧ ∀ (hook : List ℝ → List ℝ → Except EffectError (List ℝ))
        (trend data : List ℝ),
        BaseEffect.apply hook e trend data = hook trend data := by
  constructor
  · simp [BaseEffect.prepare_input_data, h]
  · intro hook trend data
    rfl

/-- Witness for the amended claim C1 at a concrete uninitialized effect and
frame. -/
theorem prepare_input_data_lifecycle_guard_witness :
    BaseEffect.prepare_input_data uninitLogEffect dfX
        = .error .notInitialized
    ∧ BaseEffect.apply (LogEffect.applyHookE 3 1) uninitLogEffect [2] [5]
        = LogEffect.applyHookE 3 1 [2] [5] :=
  ⟨(prepare_input_data_lifecycle_guard uninitLogEffect dfX rfl).1,
   (prepare_input_data_lifecycle_guard uninitLogEffect dfX rfl).2
     (LogEffect.applyHookE 3 1) [2] [5]⟩

/-- Claim C4, counterexample: a rank-three data tensor whose trailing
dimension equals the leading dimension of the coefficient vector — the claim
says no error is raised — yet both additive_effect and multiplicative_effect
raise the dimension-mismatch error, because the source compares
data.shape at position one, which for rank-three data is the middle
dimension, not the trailing one. -/
theorem dimension_check_counterexample :
    (NDArray.d3 [[[1, 2, 3], [4, 5, 6]]]).shape.getLast? = some 3
    ∧ (NDArray.d1 [1, 1, 1]).shape.headD 0 = 3
    ∧ additive_effect (.d3 [[[1, 2, 3], [4, 5, 6]]]) (.d1 [1, 1, 1])
        = .error .dimensionMismatch
    ∧ multiplicative_effect (.d1 [1]) (.d3 [[[1, 2, 3], [4, 5, 6]]])
        (.d1 [1, 1, 1])
        = .error .dimensionMismatch :=
  ⟨rfl, rfl, rfl, rfl⟩

/-- Reduction of additive_effect at rank-two data: the shape entry read at
position one is the length of the first row. -/
lemma additive_effect_d2 (a : List ℚ) (m : List (List ℚ)) (c : NDArray) :
    additive_effect (.d2 (a :: m)) c
      = if a.length ≠ c.shape.headD 0 then .error .dimensionMismatch
        else matrix_multiplication (.d2 (a :: m)) c := rfl

/-- Reduction of multiplicative_effect at rank-two data. -/
lemma multiplicative_effect_d2 (t : NDArray) (a : List ℚ)
    (m : List (List ℚ)) (c : NDArray) :
    multiplicative_effect t (.d2 (a :: m)) c
      = if a.length ≠ c.shape.headD 0 then .error .dimensionMismatch
        else
          match matrix_multiplication (.d2 (a :: m)) c with
          | .error e => .error e
          | .ok r => NDArray.mul t r := rfl

/-- Reduction of the elementwise product at two rank-two arrays. -/
lemma ndarray_mul_d2 (a b : List (List ℚ)) :
    NDArray.mul (.d2 a) (.d2 b)
      = if a.map List.length = b.map List.length then
          .ok (.d2 (List.zipWith (List.zipWith (· * ·)) a b))
        else .error .broadcastError := rfl

/-- Row lengths of a list of singleton rows. -/
lemma map_length_map_singleton (w : List ℚ) :
    (w.map (fun x => [x])).map List.length = List.replicate w.length 1 := by
  induction w with
  | nil => rfl
  | cons x xs ih => simp [ih, List.replicate_succ]

/-- Row lengths of the column produced by the matrix product. -/
lemma map_length_map_dot (v : List ℚ) (m : List (List ℚ)) :
    (m.map (fun row => [dotProd row v])).map List.length
      = List.replicate m.length 1 := by
  induction m with
  | nil => rfl
  | cons r m' ih => simp [ih, List.replicate_succ]

/-- Claim C4, amended: additive_effect and multiplicative_effect compare
data.shape at position one with the leading dimension of the coefficients;
for rank-two data — the shape the default preparation hook produces for a
flat frame — that position is the trailing dimension and the claim holds as
stated: the dimension-mismatch error is raised before multiplying exactly
when the trailing data dimension differs from the coefficient length, and no
error is raised when they are equal.  For rank-three data position one is
the middle dimension and the claim fails (see the counterexample). -/
theorem dimension_check_rank_two (m : List (List ℚ)) (v w : List ℚ) (k : Nat)
    (hm : m ≠ []) (hrows : ∀ row ∈ m, row.length = k)
    (hw : w.length = m.length) :
    (k ≠ v.length →
      additive_effect (.d2 m) (.d1 v) = .error .dimensionMismatch
      ∧ multiplicative_effect (.d2 (w.map fun x => [x])) (.d2 m) (.d1 v)
          = .error .dimensionMismatch)
    ∧ (k = v.length →
      additive_effect (.d2 m) (.d1 v)
          = .ok (.d2 (m.map fun row => [dotProd row v]))
      ∧ multiplicative_effect (.d2 (w.map fun x => [x])) (.d2 m) (.d1 v)
          = .ok (.d2 (List.zipWith (List.zipWith (· * ·))
              (w.map fun x => [x]) (m.map fun row => [dotProd row v])))) := by
  obtain ⟨a, m', rfl⟩ : ∃ a m', m = a :: m' := by
    cases m with
    | nil => exact absurd rfl hm
    | cons a m' => exact ⟨a, m', rfl⟩
  have ha : a.length = k := hrows a (by simp)
  constructor
  · intro hne
    have hne' : a.length ≠ (NDArray.d1 v).shape.headD 0 := by
      simpa [NDArray.shape, ha] using hne
    exact ⟨by rw [additive_effect_d2, if_pos hne'],
           by rw [multiplicative_effect_d2, if_pos hne']⟩
  · intro hk
    have heq : ¬ a.length ≠ (NDArray.d1 v).shape.headD 0 := by
      simp [NDArray.shape, ha, hk]
    have hmm : matrix_multiplication (.d2 (a :: m')) (.d1 v)
        = .ok (.d2 ((a :: m').map fun row => [dotProd row v])) := by
      have hall : ((a :: m').all
          (fun row => row.length = (NDArray.d1 v).flatten.length)) = true := by
        simp only [List.all_eq_true, decide_eq_true_eq]
        intro row hrow
        simpa [NDArray.flatten, ← hk] using hrows row hrow
      simp only [matrix_multiplication]
      rw [if_pos hall]
      rfl
    constructor
    · rw [additive_effect_d2, if_neg heq, hmm]
    · rw [multiplicative_effect_d2, if_neg heq, hmm]
      simp only [ndarray_mul_d2]
      rw [if_pos]
      rw [map_length_map_singleton, map_length_map_dot, hw]

/-- Witness for the amended claim C4 at the concrete rank-two scenario of
the specification: data of shape three by two, coefficients of length two,
equal dimensions, no error and effect values one, one, two. -/
theorem dimension_check_rank_two_witness :
    additive_effect (.d2 [[1, 0], [0, 1], [1, 1]]) (.d1 [1, 1])
        = .ok (.d2 [[1], [1], [2]])
    ∧ multiplicative_effect
        (.d2 (List.map (fun x => [x]) ([1, 1, 1] : List ℚ)))
        (.d2 [[1, 0], [0, 1], [1, 1]]) (.d1 [1, 1])
        = .ok (.d2 [[1], [1], [2]]) := by
  have h := (dimension_check_rank_two [[1, 0], [0, 1], [1, 1]] [1, 1]
    [1, 1, 1] 2 (by decide) (by decide) (by decide)).2 rfl
  refine ⟨h.1.trans ?_, h.2.trans ?_⟩
  · norm_num [dotProd]
  · norm_num [dotProd]

/-- Claim C5: for every input data tensor the Log effect raw value is
scale times the logarithm of clip of rate times data plus one, clipped from
below by a small positive floor on all inputs — the clipped argument of the
logarithm is positive whatever the data, in particular when rate times data
is at most minus one — and in additive mode with scale two, rate one and
data zero and e minus one the effect is zero and two. -/
theorem log_effect_clip_and_scenario :
    (∀ (scale rate : ℝ) (data : List ℝ),
      LogEffect.applyHook scale rate data
        = data.map (fun x =>
            scale * Real.log (max (rate * x + 1) (1 / 100000000)))
      ∧ ∀ x : ℝ, (0 : ℝ) < max (rate * x + 1) (1 / 100000000))
    ∧ ∀ trend : List ℝ,
      BaseAdditiveOrMultiplicativeEffect.apply "additive"
        (fun _trend data => LogEffect.applyHook 2 1 data)
        trend [0, Real.exp 1 - 1]
        = [0, 2] := by
  constructor
  · intro scale rate data
    exact ⟨rfl, fun x => lt_of_lt_of_le (by norm_num) (le_max_right _ _)⟩
  · intro trend
    have h1 : max ((1 : ℝ) * 0 + 1) (1 / 100000000) = 1 := by
      rw [max_eq_left] <;> norm_num
    have he : (1 : ℝ) * (Real.exp 1 - 1) + 1 = Real.exp 1 := by ring
    have h2 : max ((1 : ℝ) * (Real.exp 1 - 1) + 1) (1 / 100000000)
        = Real.exp 1 := by
      rw [he, max_eq_left]
      have hexp := Real.add_one_le_exp (1 : ℝ)
      linarith
    simp only [BaseAdditiveOrMultiplicativeEffect.apply, if_pos,
      LogEffect.applyHook, List.map_cons, List.map_nil]
    rw [h1, h2, Real.log_one, Real.log_exp]
    norm_num

/-- Claim C6: for every input data tensor the Hill effect raw value is
max_effect divided by one plus the safe power of data over half_max at
exponent minus slope, and in multiplicative mode with half_max one, slope
one, max_effect ten, trend one-one and data one-three the final effect is
five and fifteen halves. -/
theorem hill_effect_formula_and_scenario :
    (∀ (half_max slope max_effect : ℝ) (trend data : List ℝ),
      HillEffect.compute_effect "additive" half_max slope max_effect
          trend data
        = data.map (fun d =>
            max_effect / (1 + exponent_safe (d / half_max) (-slope))))
    ∧ HillEffect.compute_effect "multiplicative" 1 1 10 [1, 1] [1, 3]
        = [5, 15 / 2] := by
  constructor
  · intro half_max slope max_effect trend data
    simp [HillEffect.compute_effect]
  · have e1 : exponent_safe ((1 : ℝ) / 1) (-1) = 1 := by
      rw [exponent_safe, if_neg (by norm_num)]
      norm_num
    have e3 : exponent_safe ((3 : ℝ) / 1) (-1) = 3⁻¹ := by
      rw [exponent_safe, if_neg (by norm_num)]
      norm_num
    simp only [HillEffect.compute_effect, List.map_cons, List.map_nil]
    rw [if_neg (by decide)]
    rw [e1, e3]
    norm_num

/-- Unfolding of colEntrySum on the empty pair list. -/
lemma colEntrySum_nil (r : Nat) : colEntrySum [] r = 0 := rfl

/-- Unfolding of colEntrySum on a cons. -/
lemma colEntrySum_cons (p : Nat × ℚ) (rest : List (Nat × ℚ)) (r : Nat) :
    colEntrySum (p :: rest) r
      = (if p.1 = r then p.2 else 0) + colEntrySum rest r := rfl

/-- colEntrySum distributes over list append. -/
lemma colEntrySum_append (p q : List (Nat × ℚ)) (r : Nat) :
    colEntrySum (p ++ q) r = colEntrySum p r + colEntrySum q r := by
  induction p with
  | nil => rw [List.nil_append, colEntrySum_nil, zero_add]
  | cons a p ih =>
      rw [List.cons_append, colEntrySum_cons, colEntrySum_cons, ih, add_assoc]

/-- A row that no pair indexes receives the zero contribution. -/
lemma colEntrySum_notMem (pairs : List (Nat × ℚ)) (r : Nat)
    (h : r ∉ pairs.map Prod.fst) : colEntrySum pairs r = 0 := by
  induction pairs with
  | nil => rfl
  | cons p rest ih =>
      simp only [List.map_cons, List.mem_cons] at h
      push_neg at h
      rw [colEntrySum_cons, if_neg (fun he => h.1 he.symm), ih h.2, add_zero]

/-- With duplicate-free indexes the summed contribution of a row is the
coefficient of the unique pair indexing it, exactly what find? locates. -/
lemma colEntrySum_eq_find (pairs : List (Nat × ℚ)) (r : Nat)
    (h : (pairs.map Prod.fst).Nodup) :
    colEntrySum pairs r
      = (match pairs.find? (fun p => p.1 = r) with
         | some p => p.2
         | none => 0) := by
  induction pairs with
  | nil => rfl
  | cons p rest ih =>
      simp only [List.map_cons, List.nodup_cons] at h
      rw [colEntrySum_cons]
      by_cases hr : p.1 = r
      · rw [List.find?_cons_of_pos _ (by simp [hr]), if_pos hr,
          colEntrySum_notMem rest r (by rw [← hr]; exact h.1), add_zero]
      · rw [List.find?_cons_of_neg _ (by simp [hr]), if_neg hr, ih h.2,
          zero_add]

/-- The zero vector as a map over the range. -/
lemma zeroVec_eq_map (n : Nat) :
    zeroVec n = (List.range n).map (fun _ => (0 : ℚ)) := by
  simp [zeroVec]

/-- vecAdd of two maps over a common list is the map of the pointwise
sum. -/
lemma vecAdd_map (l : List Nat) (f g : Nat → ℚ) :
    vecAdd (l.map f) (l.map g) = l.map (fun r => f r + g r) := by
  induction l with
  | nil => rfl
  | cons a l ih =>
      simp only [vecAdd, List.map_cons, List.zipWith_cons_cons]
      simp only [vecAdd] at ih
      rw [ih]

/-- The matrix whose columns are the basis vectors selected by a flat index
list acts on a vector as the row-wise contribution sum. -/
lemma matVecCols_eyeRowsT (n : Nat) (g : List Nat) (v : List ℚ) :
    matVecCols n (eyeRowsT n g) v
      = (List.range n).map (colEntrySum (g.zip v)) := by
  induction g generalizing v with
  | nil =>
      simp only [eyeRowsT, List.map_nil, matVecCols, List.zip_nil_left,
        List.foldr_nil, zeroVec_eq_map, List.zip_nil_left]
      rfl
  | cons i g ih =>
      cases v with
      | nil =>
          simp only [matVecCols, List.zip_nil_right, List.map_nil,
            List.foldr_nil, zeroVec_eq_map]
          rfl
      | cons b v =>
          have hstep : matVecCols n (eyeRowsT n (i :: g)) (b :: v)
              = vecAdd (vecSmul b (basisRow n i))
                  (matVecCols n (eyeRowsT n g) v) := rfl
          rw [hstep, ih]
          have hsm : vecSmul b (basisRow n i)
              = (List.range n).map (fun r => if r = i then b else 0) := by
            simp only [vecSmul, basisRow, List.map_map, Function.comp]
            refine List.map_congr_left (fun r _ => ?_)
            by_cases h : r = i <;> simp [h]
          rw [hsm, vecAdd_map]
          refine List.map_congr_left (fun r _ => ?_)
          rw [List.zip_cons_cons, colEntrySum_cons]
          by_cases h : r = i
          · rw [if_pos h, if_pos h.symm]
          · rw [if_neg h, if_neg (fun he => h he.symm)]

/-- The specification scatter of one group agrees with the row-wise
contribution sums when the group indexes are duplicate-free. -/
lemma scatterGroup_eq_map (n : Nat) (g : List Nat) (v : List ℚ)
    (hnd : g.Nodup) (hlen : g.length = v.length) :
    scatterGroup n g v = (List.range n).map (colEntrySum (g.zip v)) := by
  have hfst : (g.zip v).map Prod.fst = g :=
    List.map_fst_zip g v (le_of_eq hlen)
  unfold scatterGroup
  refine List.map_congr_left (fun r _ => ?_)
  rw [colEntrySum_eq_find _ _ (by rw [hfst]; exact hnd)]

/-- Horizontal flattening of per-group mapped blocks is the map of the
flattened list. -/
lemma flatten_map_map {α β : Type} (f : α → β) (l : List (List α)) :
    (l.map (List.map f)).flatten = l.flatten.map f := by
  induction l with
  | nil => rfl
  | cons a l ih =>
      rw [List.map_cons, List.flatten_cons, ih, List.flatten_cons,
        List.map_append]

/-- The placement matrix columns are the basis columns of the flattened
group index list. -/
lemma placementCols_eq (n : Nat) (groups : List (List Nat)) :
    placementCols n groups = eyeRowsT n groups.flatten := by
  simp only [placementCols, eyeRowsT]
  exact flatten_map_map (basisRow n) groups

/-- The scatter-and-sum of all groups equals the row-wise contribution sums
of the flattened pairs. -/
lemma scatterSum_eq (n : Nat) (groups : List (List Nat))
    (draws : List (List ℚ))
    (hlen : groups.map List.length = draws.map List.length)
    (hnd : ∀ g ∈ groups, g.Nodup) :
    scatterSum n groups draws
      = (List.range n).map
          (colEntrySum (groups.flatten.zip draws.flatten)) := by
  induction groups generalizing draws with
  | nil =>
      cases draws with
      | nil =>
          simp only [scatterSum, List.zip_nil_left, List.map_nil,
            List.foldr_nil, zeroVec_eq_map, List.flatten_nil]
          rfl
      | cons v vs => simp at hlen
  | cons g gs ih =>
      cases draws with
      | nil => simp at hlen
      | cons v vs =>
          simp only [List.map_cons, List.cons.injEq] at hlen
          have hstep : scatterSum n (g :: gs) (v :: vs)
              = vecAdd (scatterGroup n g v) (scatterSum n gs vs) := rfl
          rw [hstep, ih vs hlen.2 (fun x hx => hnd x (List.mem_cons_of_mem _ hx)),
            scatterGroup_eq_map n g v (hnd g (List.mem_cons_self _ _)) hlen.1,
            vecAdd_map]
          refine List.map_congr_left (fun r _ => ?_)
          rw [List.flatten_cons, List.flatten_cons,
            List.zip_append hlen.1, colEntrySum_append]

/-- Reading entry r of a basis column. -/
lemma getD_basisRow (n i r : Nat) (hr : r < n) :
    (basisRow n i).getD r 0 = if r = i then 1 else 0 := by
  rw [basisRow, List.getD_eq_getElem?_getD, List.getElem?_map,
    List.getElem?_range hr]
  rfl

/-- Counting the ones among the indicator entries of a row counts the
occurrences of the row index in the flat index list. -/
lemma count_one_map_indicator (r : Nat) (flat : List Nat) :
    (flat.map (fun i => if r = i then (1 : ℚ) else 0)).count 1
      = flat.count r := by
  induction flat with
  | nil => rfl
  | cons i l ih =>
      by_cases h : r = i
      · subst h
        simp [List.count_cons, ih]
      · have h1 : i ≠ r := fun he => h he.symm
        simp [List.count_cons, ih, h, h1]

/-- In a duplicate-free, pairwise-disjoint family of groups, a row belonging
to some group occurs exactly once in the flattened index list. -/
lemma count_flatten_partition (groups : List (List Nat)) (r : Nat)
    (hnd : ∀ g ∈ groups, g.Nodup)
    (hdisj : List.Pairwise (fun g h => ∀ i ∈ g, i ∉ h) groups)
    (hmem : ∃ g ∈ groups, r ∈ g) :
    groups.flatten.count r = 1 := by
  induction groups with
  | nil => simp at hmem
  | cons g gs ih =>
      rw [List.flatten_cons, List.count_append]
      rw [List.pairwise_cons] at hdisj
      by_cases hg : r ∈ g
      · have h1 : g.count r = 1 :=
          List.count_eq_one_of_mem (hnd g (List.mem_cons_self _ _)) hg
        have h0 : gs.flatten.count r = 0 := by
          rw [List.count_eq_zero]
          intro hflat
          rcases List.mem_flatten.mp hflat with ⟨h', hh', hrh'⟩
          exact hdisj.1 h' hh' r hg hrh'
        rw [h1, h0]
      · rcases hmem with ⟨g', hg', hrg'⟩
        rcases List.mem_cons.mp hg' with heq | hgs
        · subst heq
          exact absurd hrg' hg
        · have h1 : g.count r = 0 := List.count_eq_zero.mpr hg
          rw [h1, ih (fun x hx => hnd x (List.mem_cons_of_mem _ hx))
            hdisj.2 ⟨g', hgs, hrg'⟩, zero_add]

/-- Claim C2: for every disjoint partition of the features into prior
groups, applying the placement matrix to the concatenation, in declaration
order, of the per-group coefficient vectors yields the feature-ordered
coefficient vector obtained by placing each group coefficient at its
feature position and zero elsewhere, summed across groups; and each row of
the placement matrix holds exactly one entry equal to one. -/
theorem placement_matrix_scatter_gather (n : Nat)
    (groups : List (List Nat)) (draws : List (List ℚ))
    (hlen : groups.map List.length = draws.map List.length)
    (hnodup : ∀ g ∈ groups, g.Nodup)
    (hdisj : List.Pairwise (fun g h => ∀ i ∈ g, i ∉ h) groups)
    (hcover : ∀ r, r < n → ∃ g ∈ groups, r ∈ g) :
    get_coefficients n groups draws = scatterSum n groups draws
    ∧ ∀ r, r < n →
        ((placementCols n groups).map (fun c => c.getD r 0)).count 1 = 1 := by
  constructor
  · rw [get_coefficients, placementCols_eq, matVecCols_eyeRowsT,
      scatterSum_eq n groups draws hlen hnodup]
  · intro r hr
    rw [placementCols_eq, eyeRowsT, List.map_map]
    have hpt : groups.flatten.map ((fun c => c.getD r 0) ∘ basisRow n)
        = groups.flatten.map (fun i => if r = i then (1 : ℚ) else 0) :=
      List.map_congr_left (fun i _ => getD_basisRow n i r hr)
    rw [hpt, count_one_map_indicator,
      count_flatten_partition groups r hnodup hdisj (hcover r hr)]

/-- Witness for claim C2 at a concrete three-feature partition into the
groups zero-two and one with draws five-seven and eleven. -/
theorem placement_matrix_scatter_gather_witness :
    get_coefficients 3 [[0, 2], [1]] [[5, 7], [11]]
      = scatterSum 3 [[0, 2], [1]] [[5, 7], [11]]
    ∧ ((placementCols 3 [[0, 2], [1]]).map (fun c => c.getD 1 0)).count 1
        = 1 :=
  ⟨(placement_matrix_scatter_gather 3 [[0, 2], [1]] [[5, 7], [11]]
      (by decide) (by decide) (by decide) (by decide)).1,
   (placement_matrix_scatter_gather 3 [[0, 2], [1]] [[5, 7], [11]]
      (by decide) (by decide) (by decide) (by decide)).2 1 (by decide)⟩

/-- Claim C3, evaluation at the failing input: with feature names x1 and
x10 and the single explicit group pattern x10, the overlap check passes and
the catch-all is built from the single remaining name x1 — yet that
catch-all pattern prefix-matches the already claimed column x10, so the
feature x10 is assigned to two groups and its placement-matrix row holds
two ones instead of one.  The first conjunct shows the overlap half of the
claim does hold: two explicit patterns claiming a common column raise the
configuration error naming that column. -/
theorem heterogeneous_groups_prefix_capture :
    features_with_default_priors
        [(litRx "x1", (0 : Nat)), (litRx "x10", 0)] c3features
      = .error ["x10"]
    ∧ features_with_default_priors c3priors c3features = .ok ["x1"]
    ∧ (disjRx ["x1"]).accepts "x10" = true
    ∧ (set_distributions_and_permutation_matrix c3priors 1 c3features).map
        (fun r => ((r.permutationCols.map (fun c => c.getD 1 0)).count 1,
                   r.dists.length))
      = .ok (2, 2) := by
  decide

/-- Claim C7: for every column list and every pattern, match_columns returns
a subsequence of the input columns preserving the original input order, and
is idempotent — matching the result again with the same pattern returns the
same columns. -/
theorem match_columns_sublist_idempotent (p : String → Bool)
    (columns : List String) :
    BaseEffect.match_columns (some p) columns = .ok (columns.filter p)
    ∧ (columns.filter p).Sublist columns
    ∧ BaseEffect.match_columns (some p) (columns.filter p)
        = .ok (columns.filter p) := by
  refine ⟨rfl, List.filter_sublist _, ?_⟩
  simp [BaseEffect.match_columns, List.filter_filter]

/-- Claim C8: for all tensors, the multiplicative combination of
BaseAdditiveOrMultiplicativeEffect.apply equals the trend multiplied
elementwise by the raw value, and the additive combination returns the raw
value unchanged; the mode string is a construction-time constant of the
embedding. -/
theorem additive_or_multiplicative_combination
    (applyHook : List ℝ → List ℝ → List ℝ) (trend data : List ℝ) :
    BaseAdditiveOrMultiplicativeEffect.apply "additive" applyHook trend data
      = applyHook trend data
    ∧ BaseAdditiveOrMultiplicativeEffect.apply "multiplicative" applyHook
        trend data
      = List.zipWith (· * ·) trend (applyHook trend data) := by
  constructor
  · simp [BaseAdditiveOrMultiplicativeEffect.apply]
  · rw [BaseAdditiveOrMultiplicativeEffect.apply, if_neg (by decide)]

/-- Claim C9: the declared name of every random variable is the effect id
followed by a double underscore followed by the local name; in particular two
effects with ids promo and seasonality both declaring coefs produce the
distinct site names promo__coefs and seasonality__coefs. -/
theorem sample_site_name_prefixing :
    (∀ id name : String,
        BaseEffect.sample_site_name id name = id ++ "__" ++ name)
    ∧ BaseEffect.sample_site_name "promo" "coefs" = "promo__coefs"
    ∧ BaseEffect.sample_site_name "seasonality" "coefs"
        = "seasonality__coefs"
    ∧ BaseEffect.sample_site_name "promo" "coefs"
        ≠ BaseEffect.sample_site_name "seasonality" "coefs" := by
  refine ⟨fun id name => rfl, rfl, rfl, by decide⟩

/-- Membership in an enumerated list projects to membership of the element
in the underlying list. -/
lemma snd_mem_of_mem_enumFrom {l : List String} :
    ∀ {n : Nat} {pr : Nat × String}, pr ∈ l.enumFrom n → pr.2 ∈ l := by
  induction l with
  | nil =>
      intro n pr h
      simp [List.enumFrom] at h
  | cons a l ih =>
      intro n pr h
      rw [List.enumFrom] at h
      rcases List.mem_cons.mp h with heq | h2
      · rw [heq]
        exact List.mem_cons_self _ _
      · exact List.mem_cons_of_mem _ (ih h2)

/-- A pattern matching no feature name selects the empty index list. -/
lemma groupIdx_nil_of_filter_nil (m : String → Bool) (l : List String)
    (h : l.filter m = []) : groupIdx m l = [] := by
  have h' : ∀ c ∈ l, ¬ (m c = true) := List.filter_eq_nil_iff.mp h
  unfold groupIdx
  rw [List.map_eq_nil_iff, List.filter_eq_nil_iff]
  intro pr hpr
  exact h' pr.2 (snd_mem_of_mem_enumFrom hpr)

/-- A group pattern matching no feature leaves the overlap walk of
features_with_default_priors unchanged wherever it stands. -/
lemma remainingAfter_skip {α : Type} (feature_names : List String)
    (rx : Rx) (p : α) (hm : feature_names.filter rx.accepts = []) :
    ∀ (xs ys : List (Rx × α)) (alreadySet : List String),
      remainingAfter feature_names (xs ++ (rx, p) :: ys) alreadySet
        = remainingAfter feature_names (xs ++ ys) alreadySet := by
  intro xs
  induction xs with
  | nil =>
      intro ys alreadySet
      rw [List.nil_append, List.nil_append]
      show remainingAfter feature_names ((rx, p) :: ys) alreadySet = _
      simp only [remainingAfter, hm, List.filter_nil, List.isEmpty_nil,
        if_true, List.append_nil]
  | cons hd xs' ih =>
      intro ys alreadySet
      obtain ⟨rx', p'⟩ := hd
      rw [List.cons_append, List.cons_append]
      simp only [remainingAfter]
      split
      · exact ih ys _
      · rfl

/-- The warning-and-name-free content of the loop result does not depend on
the starting value of the enumerate counter. -/
lemma buildLoop_stripNames_index {α : Type} (feature_names : List String) :
    ∀ (ps : List (Rx × α)) (i j : Nat),
      stripNames (buildLoop feature_names i ps)
        = stripNames (buildLoop feature_names j ps) := by
  intro ps
  induction ps with
  | nil => intro i j; rfl
  | cons hd rest ih =>
      intro i j
      obtain ⟨rx, p⟩ := hd
      simp only [buildLoop]
      by_cases hidx : (groupIdx rx.accepts feature_names).isEmpty = true
      · rw [if_pos hidx, if_pos hidx]
        exact ih (i + 1) (j + 1)
      · rw [if_neg hidx, if_neg hidx]
        have h2 := ih (i + 1) (j + 1)
        simp only [stripNames, Prod.mk.injEq] at h2 ⊢
        exact ⟨by rw [h2.1], by rw [List.map_cons, List.map_cons, h2.2]⟩

/-- Dropping a group whose pattern matches no feature from anywhere in the
prior list leaves the permutation matrix and the prior-and-size content of
the declared distributions unchanged. -/
lemma buildLoop_stripNames_skip {α : Type} (feature_names : List String)
    (rx : Rx) (p : α) (hidx : groupIdx rx.accepts feature_names = []) :
    ∀ (xs ys : List (Rx × α)) (i : Nat),
      stripNames (buildLoop feature_names i (xs ++ (rx, p) :: ys))
        = stripNames (buildLoop feature_names i (xs ++ ys)) := by
  intro xs
  induction xs with
  | nil =>
      intro ys i
      rw [List.nil_append, List.nil_append]
      have hstep : stripNames (buildLoop feature_names i ((rx, p) :: ys))
          = stripNames (buildLoop feature_names (i + 1) ys) := by
        simp only [buildLoop, hidx, List.isEmpty_nil, if_true]
        rfl
      rw [hstep]
      exact buildLoop_stripNames_index feature_names ys (i + 1) i
  | cons hd xs' ih =>
      intro ys i
      obtain ⟨rx', p'⟩ := hd
      rw [List.cons_append, List.cons_append]
      simp only [buildLoop]
      by_cases h : (groupIdx rx'.accepts feature_names).isEmpty = true
      · rw [if_pos h, if_pos h]
        exact ih ys (i + 1)
      · rw [if_neg h, if_neg h]
        have h2 := ih ys (i + 1)
        simp only [stripNames, Prod.mk.injEq] at h2 ⊢
        exact ⟨by rw [h2.1], by rw [List.map_cons, List.map_cons, h2.2]⟩

/-- The pattern of a group matching no feature is logged among the
warnings. -/
lemma buildLoop_warning_mem {α : Type} (feature_names : List String)
    (rx : Rx) (p : α) (hidx : groupIdx rx.accepts feature_names = []) :
    ∀ (xs ys : List (Rx × α)) (i : Nat),
      rx.pattern ∈ (buildLoop feature_names i
        (xs ++ (rx, p) :: ys)).warnings := by
  intro xs
  induction xs with
  | nil =>
      intro ys i
      rw [List.nil_append]
      simp only [buildLoop, hidx, List.isEmpty_nil, if_true]
      exact List.mem_cons_self _ _
  | cons hd xs' ih =>
      intro ys i
      obtain ⟨rx', p'⟩ := hd
      rw [List.cons_append]
      simp only [buildLoop]
      by_cases h : (groupIdx rx'.accepts feature_names).isEmpty = true
      · rw [if_pos h]
        exact List.mem_cons_of_mem _ (ih ys (i + 1))
      · rw [if_neg h]
        exact ih ys (i + 1)

/-- Claim C10: a prior group whose pattern matches no feature name is
dropped at initialization without raising — the overlap walk is unchanged,
a warning carrying the pattern is logged, no distribution is declared for
the group, it contributes no column to the placement matrix, and the
assembled coefficient vector is unaffected.  The distribution content is
compared through stripNames because the enumerate counter still advances
past the skipped group, shifting the purely internal declared names of the
later groups. -/
theorem empty_prior_group_dropped {α : Type} (xs ys : List (Rx × α))
    (rx : Rx) (p defaultPrior : α) (feature_names : List String)
    (hm : feature_names.filter rx.accepts = []) :
    features_with_default_priors (xs ++ (rx, p) :: ys) feature_names
        = features_with_default_priors (xs ++ ys) feature_names
    ∧ (set_distributions_and_permutation_matrix (xs ++ (rx, p) :: ys)
          defaultPrior feature_names).map stripNames
        = (set_distributions_and_permutation_matrix (xs ++ ys)
            defaultPrior feature_names).map stripNames
    ∧ (∀ (draws : List (List ℚ)) (r1 r2 : BuildResult α),
        set_distributions_and_permutation_matrix (xs ++ (rx, p) :: ys)
            defaultPrior feature_names = .ok r1 →
        set_distributions_and_permutation_matrix (xs ++ ys)
            defaultPrior feature_names = .ok r2 →
        lin_het_get_coefficients feature_names.length r1 draws
          = lin_het_get_coefficients feature_names.length r2 draws)
    ∧ (feature_names ≠ [] →
        ∀ r1 : BuildResult α,
          set_distributions_and_permutation_matrix (xs ++ (rx, p) :: ys)
              defaultPrior feature_names = .ok r1 →
          rx.pattern ∈ r1.warnings) := by
  have hidx : groupIdx rx.accepts feature_names = [] :=
    groupIdx_nil_of_filter_nil rx.accepts feature_names hm
  have h1 : features_with_default_priors (xs ++ (rx, p) :: ys) feature_names
      = features_with_default_priors (xs ++ ys) feature_names :=
    remainingAfter_skip feature_names rx p hm xs ys []
  have hloop : ∀ (t : List (Rx × α)) (i : Nat),
      stripNames (buildLoop feature_names i ((xs ++ (rx, p) :: ys) ++ t))
        = stripNames (buildLoop feature_names i ((xs ++ ys) ++ t)) := by
    intro t i
    rw [List.append_assoc, List.append_assoc, List.cons_append]
    exact buildLoop_stripNames_skip feature_names rx p hidx xs (ys ++ t) i
  have h2 : (set_distributions_and_permutation_matrix (xs ++ (rx, p) :: ys)
        defaultPrior feature_names).map stripNames
      = (set_distributions_and_permutation_matrix (xs ++ ys)
          defaultPrior feature_names).map stripNames := by
    by_cases hn : feature_names.length = 0
    · simp only [set_distributions_and_permutation_matrix, if_pos hn]
    · simp only [set_distributions_and_permutation_matrix, if_neg hn, h1]
      cases hfw : features_with_default_priors (xs ++ ys) feature_names with
      | error e => rfl
      | ok remaining =>
          by_cases hne : String.intercalate "|" remaining ≠ ""
          · simp only [if_pos hne, Except.map]
            rw [hloop [(disjRx remaining, defaultPrior)] 0]
          · simp only [if_neg hne, Except.map]
            have := hloop [] 0
            rw [List.append_nil, List.append_nil] at this
            rw [this]
  refine ⟨h1, h2, ?_, ?_⟩
  · intro draws r1 r2 hr1 hr2
    rw [hr1, hr2] at h2
    simp only [Except.map, Except.ok.injEq] at h2
    have hcols : r1.permutationCols = r2.permutationCols :=
      congrArg Prod.fst h2
    rw [lin_het_get_coefficients, lin_het_get_coefficients, hcols]
  · intro hnil r1 hr1
    have hn : ¬ feature_names.length = 0 := by
      rw [List.length_eq_zero]
      exact hnil
    rw [set_distributions_and_permutation_matrix, if_neg hn] at hr1
    cases hfw : features_with_default_priors (xs ++ (rx, p) :: ys)
        feature_names with
    | error e => rw [hfw] at hr1; exact absurd hr1 (by simp)
    | ok remaining =>
        rw [hfw] at hr1
        simp only [Except.ok.injEq] at hr1
        by_cases hne : String.intercalate "|" remaining ≠ ""
        · rw [if_pos hne] at hr1
          rw [← hr1]
          have h4 := buildLoop_warning_mem feature_names rx p hidx xs
            (ys ++ [(disjRx remaining, defaultPrior)]) 0
          rw [← List.cons_append, ← List.append_assoc] at h4
          exact h4
        · rw [if_neg hne] at hr1
          rw [← hr1]
          exact buildLoop_warning_mem feature_names rx p hidx xs ys 0

/-- Witness for claim C10: with features a and b, an explicit group zzz
matching nothing before the group a, the overlap walk is unchanged by
dropping zzz and the concrete build result logs the zzz warning. -/
theorem empty_prior_group_dropped_witness :
    features_with_default_priors
        [(litRx "zzz", (7 : Nat)), (litRx "a", 5)] ["a", "b"]
      = features_with_default_priors [(litRx "a", 5)] ["a", "b"]
    ∧ (litRx "zzz").pattern ∈ c10result.warnings := by
  have h := empty_prior_group_dropped ([] : List (Rx × Nat))
    [(litRx "a", 5)] (litRx "zzz") 7 9 ["a", "b"] (by decide)
  exact ⟨h.1, h.2.2.2 (by decide) c10result (by decide)⟩

end Prophetverse
